import Mathlib

/-!
Verification of the habit-tracking core: period-bounds resolution,
progress aggregation (total and status), increment/decrement semantics,
direct calendar edits, and habit reordering.

The embedding mirrors the TypeScript sources:
 * `getPeriodBounds`, `useTodayLog` and `useCurrentPeriodLog` from the
   habit-log hook (date-fns calendar arithmetic is modelled by the standard
   civil-calendar day-number algorithm; local zoned time is represented as a
   civil date plus milliseconds-of-day, and the implicit `new Date()` is made
   an explicit reference parameter);
 * `getProgressStatus`, `handleIncrement`, `handleDecrement` and the
   `currentValue` selection from the `HabitCard` component;
 * `handleSaveLog` from `HabitHistory` together with `logHabit`/`updateLog`;
 * `reorderHabits` from the habits hook.
Frequencies are strings, as in the source (a string union with a defensive
`default` branch in the `switch`).
-/

namespace Habits

/-- Milliseconds in one day. -/
def msPerDay : Int := 86400000

/-- Last millisecond of a local day, as produced by date-fns `endOfDay`. -/
def endOfDayMs : Int := 86399999

/-- A local instant: a calendar day (as a day number since 1970-01-01 in the
local civil calendar) together with the millisecond offset inside that day.
This represents the zoned values that `toZonedTime` produces before the
date-fns bucketing functions are applied. -/
structure Instant where
  days : Int
  ms : Int
deriving DecidableEq, Repr

/-- Total milliseconds of an instant, used for the inclusive range
comparisons of the store queries (`date >= start`, `date <= end`). -/
def toMs (i : Instant) : Int := i.days * msPerDay + i.ms

/-- A local civil date-time: year, month (1-12), day of month, and
millisecond of day. This is the reference "now" after conversion to the
device timezone. -/
structure CivilDateTime where
  year : Int
  month : Int
  day : Int
  ms : Int
deriving DecidableEq, Repr

/-- Gregorian leap-year test. -/
def isLeapYear (y : Int) : Bool :=
  (y % 4 == 0 && y % 100 != 0) || y % 400 == 0

/-- Number of days in a civil month. -/
def daysInMonth (y m : Int) : Int :=
  if m = 2 then (if isLeapYear y then 29 else 28)
  else if m = 4 ∨ m = 6 ∨ m = 9 ∨ m = 11 then 30
  else 31

/-- Day number of the first day of a civil month, relative to 1970-01-01
(standard civil-calendar day-number computation, shifted by one so that
`daysFromCivil y m d = civilMonthBase y m + (d - 1)`). -/
def civilMonthBase (y m : Int) : Int :=
  let yadj := if m ≤ 2 then y - 1 else y
  let era := yadj / 400
  let yoe := yadj - era * 400
  let mp := if 2 < m then m - 3 else m + 9
  era * 146097 + (yoe * 365 + yoe / 4 - yoe / 100 + (153 * mp + 2) / 5) - 719468

/-- Day number of a civil date, relative to 1970-01-01. -/
def daysFromCivil (y m d : Int) : Int := civilMonthBase y m + (d - 1)

/-- Day of week of a day number, JavaScript convention: 0 = Sunday,
1 = Monday, ..., 6 = Saturday (1970-01-01 was a Thursday). -/
def dayOfWeek (days : Int) : Int := (days + 4) % 7

/-- Day number of the reference instant's calendar day. -/
def refDays (c : CivilDateTime) : Int := daysFromCivil c.year c.month c.day

/-- The reference instant as an `Instant`. -/
def toInstant (c : CivilDateTime) : Instant := ⟨refDays c, c.ms⟩

/-- Validity of a civil date-time: month and day in calendar range and a
millisecond offset inside the day. -/
def ValidCivil (c : CivilDateTime) : Prop :=
  1 ≤ c.month ∧ c.month ≤ 12 ∧ 1 ≤ c.day ∧ c.day ≤ daysInMonth c.year c.month ∧
    0 ≤ c.ms ∧ c.ms < msPerDay

instance (c : CivilDateTime) : Decidable (ValidCivil c) := by
  unfold ValidCivil; infer_instance

/-- Embedding of `getPeriodBounds(frequency, timezone)` from the habit-log
hook, with the internal `new Date()` made an explicit civil reference.
`daily`/`workday` share a branch (switch fall-through); `weekly` uses
date-fns `startOfWeek`/`endOfWeek` with `weekStartsOn: 1` (Monday);
`monthly` uses `startOfMonth`/`endOfMonth`; any other string takes the
`default` branch, identical to `daily`. -/
def getPeriodBounds (frequency : String) (ref : CivilDateTime) :
    Instant × Instant :=
  match frequency with
  | "daily" | "workday" =>
      (⟨refDays ref, 0⟩, ⟨refDays ref, endOfDayMs⟩)
  | "weekly" =>
      (⟨refDays ref - (dayOfWeek (refDays ref) + 6) % 7, 0⟩,
       ⟨refDays ref - (dayOfWeek (refDays ref) + 6) % 7 + 6, endOfDayMs⟩)
  | "monthly" =>
      (⟨daysFromCivil ref.year ref.month 1, 0⟩,
       ⟨daysFromCivil ref.year ref.month (daysInMonth ref.year ref.month),
        endOfDayMs⟩)
  | _ =>
      (⟨refDays ref, 0⟩, ⟨refDays ref, endOfDayMs⟩)

/-- A habit log record, as in `types/habit.ts`: stored dates are start-of-day
instants in the timezone captured at creation (`logHabit` writes
`startOfDay(toZonedTime(date, timezone))`). -/
structure HabitLog where
  id : Nat
  userId : String
  habitId : String
  date : Instant
  value : Int
  timezone : String
deriving DecidableEq, Repr

/-- A habit record, as in `types/habit.ts`. `goalMax` is `number | null`. -/
structure Habit where
  id : String
  userId : String
  name : String
  emoji : String
  goalMin : Int
  goalMax : Option Int
  unit : String
  frequency : String
  order : Int
deriving DecidableEq, Repr

/-- JavaScript truthiness of a `number | null` value (`if (goalMax)` is
false for `null` and for `0`). -/
def jsTruthy : Option Int → Bool
  | some v => v ≠ 0
  | none => false

/-- Embedding of `getProgressStatus` from `HabitCard`: derives the status
string from the displayed current value and the habit's goal bounds. -/
def getProgressStatus (currentValue goalMinv : Int) (goalMaxv : Option Int) :
    String :=
  if currentValue = 0 then "none"
  else if jsTruthy goalMaxv then
    let gmax := goalMaxv.getD 0
    if goalMinv ≤ currentValue ∧ currentValue ≤ gmax then "complete"
    else if gmax < currentValue then "exceeded"
    else "partial"
  else
    if goalMinv ≤ currentValue then "complete" else "partial"

/-- Membership of a log's date in an inclusive instant range, as enforced by
the store query `where date >= start, date <= end`. -/
def inRange (s e : Instant) (l : HabitLog) : Bool :=
  decide (toMs s ≤ toMs l.date) && decide (toMs l.date ≤ toMs e)

/-- Embedding of the `useTodayLog` query: the logs of the habit dated inside
today's day bucket (start-of-day to end-of-day of the reference instant),
of which the hook exposes the first. -/
def todayLogs (logs : List HabitLog) (now : CivilDateTime) : List HabitLog :=
  logs.filter (inRange ⟨refDays now, 0⟩ ⟨refDays now, endOfDayMs⟩)

/-- The `todayLog` value exposed by `useTodayLog`: the first snapshot
document of today's query, or `none` when the snapshot is empty. -/
def findTodayLog (logs : List HabitLog) (now : CivilDateTime) :
    Option HabitLog :=
  (todayLogs logs now).head?

/-- Embedding of the `useCurrentPeriodLog` total: the logs with date inside
the given inclusive bounds, summed with
`logsData.reduce((sum, log) => sum + log.value, 0)`. -/
def periodTotal (logs : List HabitLog) (s e : Instant) : Int :=
  (logs.filter (inRange s e)).foldl (fun acc l => acc + l.value) 0

/-- JavaScript `x || 0` applied to `todayLog?.value`. -/
def jsOrZero : Option Int → Int
  | some v => if v = 0 then 0 else v
  | none => 0

/-- Embedding of the `currentValue` selection in `HabitCard`: weekly and
monthly habits display the period total from `useCurrentPeriodLog`; daily
and workday habits display `todayLog?.value || 0`. -/
def currentValue (frequency : String) (logs : List HabitLog)
    (now : CivilDateTime) : Int :=
  if frequency = "weekly" ∨ frequency = "monthly" then
    let b := getPeriodBounds frequency now
    periodTotal logs b.1 b.2
  else
    jsOrZero ((findTodayLog logs now).map (·.value))

/-- A write against the `habitLogs` collection: either `addDoc` of a fresh
log document (`logHabit`) or `updateDoc` of one document's value
(`updateLog`). -/
inductive WriteOp where
  | createLog (newId : Nat) (userId habitId : String) (value : Int)
      (date : Instant) (timezone : String)
  | updateLogValue (logId : Nat) (value : Int)
deriving DecidableEq, Repr

/-- Effect of a write on the log collection: `createLog` appends a new
document, `updateLogValue` overwrites the value of the document with the
given id. -/
def applyWrite (logs : List HabitLog) : WriteOp → List HabitLog
  | .createLog newId uid hid v d tz => logs ++ [⟨newId, uid, hid, d, v, tz⟩]
  | .updateLogValue logId v =>
      logs.map (fun l => if l.id = logId then { l with value := v } else l)

/-- Embedding of `handleIncrement` from `HabitCard`: when a log for today
exists, update that log to `value + 1`; otherwise create today's log with
value 1 (`logHabit` stores it at start of day in the current timezone).
The handler does not consult the habit's frequency. -/
def handleIncrementWrite (newId : Nat) (uid hid tz : String)
    (now : CivilDateTime) (logs : List HabitLog) : WriteOp :=
  match findTodayLog logs now with
  | some tl => .updateLogValue tl.id (tl.value + 1)
  | none => .createLog newId uid hid 1 ⟨refDays now, 0⟩ tz

/-- Embedding of `handleDecrement` from `HabitCard`: no write when there is
no log for today or its value is at most 0; otherwise update today's log to
`value - 1`. -/
def handleDecrementWrite (now : CivilDateTime) (logs : List HabitLog) :
    Option WriteOp :=
  match findTodayLog logs now with
  | some tl => if tl.value ≤ 0 then none else
      some (.updateLogValue tl.id (tl.value - 1))
  | none => none

/-- Embedding of `getLogForDate` from `HabitHistory`: the first log whose
date falls on the same calendar day as the selected date. -/
def findLogForDate (logs : List HabitLog) (d : Int) : Option HabitLog :=
  logs.find? (fun l => l.date.days = d)

/-- Embedding of `handleSaveLog` from `HabitHistory` (the direct calendar
edit): overwrite the value of the existing log for the selected day, or
create a log for that day (`logHabit` stores it at start of day). -/
def directEdit (newId : Nat) (uid hid tz : String) (logs : List HabitLog)
    (d : Int) (v : Int) : List HabitLog :=
  match findLogForDate logs d with
  | some l => applyWrite logs (.updateLogValue l.id v)
  | none => applyWrite logs (.createLog newId uid hid v ⟨d, 0⟩ tz)

/-- Modelled from the spec: the workday rest-day handling of the habit card
(the card component with weekend suppression exercised by the dashboard
tests; its implementation file is not present in the source tree, only its
tests and callers). A workday-frequency habit is on a rest day when the
current local day-of-week is Saturday or Sunday. -/
def restDay (frequency : String) (nowDays : Int) : Bool :=
  frequency = "workday" && (dayOfWeek nowDays == 0 || dayOfWeek nowDays == 6)

/-- Modelled from the spec: on a rest day the card offers no increment
affordance, so no increment write can occur; otherwise the increment
behaves as `handleIncrement`. -/
def cardIncrementWrite (frequency : String) (newId : Nat)
    (uid hid tz : String) (now : CivilDateTime) (logs : List HabitLog) :
    Option WriteOp :=
  if restDay frequency (refDays now) then none
  else some (handleIncrementWrite newId uid hid tz now logs)

/-- Modelled from the spec: on a rest day the card offers no decrement
affordance, so no decrement write can occur; otherwise the decrement
behaves as `handleDecrement`. -/
def cardDecrementWrite (frequency : String) (now : CivilDateTime)
    (logs : List HabitLog) : Option WriteOp :=
  if restDay frequency (refDays now) then none
  else handleDecrementWrite now logs

/-- Overwrite the `order` field of the habit with the given id
(`updateDoc(habitRef, { order })`). -/
def setOrder (habitId : String) (ord : Int) (store : List Habit) :
    List Habit :=
  store.map (fun h => if h.id = habitId then { h with order := ord } else h)

/-- One `order` update per id, assigning consecutive indices starting at
`k`. The source issues these writes concurrently over distinct habit ids;
since each write touches a different document, the final state equals this
sequential application. -/
def applyOrders (ids : List String) (k : Int) (store : List Habit) :
    List Habit :=
  match ids with
  | [] => store
  | id :: rest => applyOrders rest (k + 1) (setOrder id k store)

/-- Embedding of `reorderHabits` from the habits hook: each habit in the new
order gets `order` set to its 0-based positional index. -/
def reorderHabits (ids : List String) (store : List Habit) : List Habit :=
  applyOrders ids 0 store

/-- Index of the first occurrence of a string in a list (0 when absent at
the end of the list, matching the positional index under distinctness). -/
def idxOf (a : String) : List String → Int
  | [] => 0
  | b :: l => if a = b then 0 else idxOf a l + 1

/-- The status derivation as the specification words it: zero total gives
"none"; with an upper bound, in-range totals are "complete", totals above
the bound "exceeded", totals below the minimum "partial"; without an upper
bound, totals at or above the minimum are "complete", otherwise "partial". -/
def specStatus (total goalMinv : Int) (goalMaxv : Option Int) : String :=
  if total = 0 then "none"
  else
    match goalMaxv with
    | some g =>
        if goalMinv ≤ total ∧ total ≤ g then "complete"
        else if g < total then "exceeded"
        else "partial"
    | none => if goalMinv ≤ total then "complete" else "partial"

/-- C1: for every habit satisfying the data-model invariants (goalMin at
least 1, goalMax strictly above goalMin when present) and every total, the
derived status is "none" at total 0; with goalMax present, "complete" in
[goalMin, goalMax], "exceeded" above goalMax, "partial" below goalMin; with
goalMax absent, "complete" at or above goalMin and "partial" otherwise. -/
theorem C1_status_boundaries (t gmin : Int) (gmax : Option Int)
    (hmin : 1 ≤ gmin) (hmax : ∀ g, gmax = some g → gmin < g) :
    getProgressStatus t gmin gmax = specStatus t gmin gmax := by
  unfold getProgressStatus specStatus
  cases gmax with
  | none => simp [jsTruthy]
  | some g =>
    have hg : gmin < g := hmax g rfl
    have hgne : ¬(g = 0) := by omega
    simp [jsTruthy, hgne]

/-- C1 witness: with goalMin 10 and goalMax 15, total 0 gives "none",
5 gives "partial", 12 gives "complete", 20 gives "exceeded". -/
theorem C1_status_boundaries_witness :
    getProgressStatus 0 10 (some 15) = "none" ∧
    getProgressStatus 5 10 (some 15) = "partial" ∧
    getProgressStatus 12 10 (some 15) = "complete" ∧
    getProgressStatus 20 10 (some 15) = "exceeded" := by
  have h0 := C1_status_boundaries 0 10 (some 15) (by decide)
    (fun g hg => by injection hg with h; omega)
  have h5 := C1_status_boundaries 5 10 (some 15) (by decide)
    (fun g hg => by injection hg with h; omega)
  have h12 := C1_status_boundaries 12 10 (some 15) (by decide)
    (fun g hg => by injection hg with h; omega)
  have h20 := C1_status_boundaries 20 10 (some 15) (by decide)
    (fun g hg => by injection hg with h; omega)
  refine ⟨h0.trans (by decide), h5.trans (by decide),
    h12.trans (by decide), h20.trans (by decide)⟩

/-- C10: for a habit without an upper goal bound the derived status is never
"exceeded"; it is always "none", "partial" or "complete", for every total. -/
theorem C10_no_exceeded_without_goalMax (t gmin : Int) :
    getProgressStatus t gmin none ≠ "exceeded" ∧
    (getProgressStatus t gmin none = "none" ∨
     getProgressStatus t gmin none = "partial" ∨
     getProgressStatus t gmin none = "complete") := by
  have h : getProgressStatus t gmin none =
      if t = 0 then "none" else if gmin ≤ t then "complete" else "partial" := by
    unfold getProgressStatus
    simp [jsTruthy]
  rw [h]
  constructor
  · split
    · decide
    · split <;> decide
  · split
    · left
      rfl
    · split
      · right
        right
        rfl
      · right
        left
        rfl

/-- Computation rule for the weekly branch of `getPeriodBounds`. -/
theorem periodBounds_weekly (c : CivilDateTime) :
    getPeriodBounds "weekly" c =
      (⟨refDays c - (dayOfWeek (refDays c) + 6) % 7, 0⟩,
       ⟨refDays c - (dayOfWeek (refDays c) + 6) % 7 + 6, endOfDayMs⟩) := rfl

/-- C6: for every reference instant, the weekly period starts on the Monday
on or before the reference day (day-of-week 1, at most 6 days back) and
ends six days later on a Sunday (day-of-week 0); in particular reference
Wednesday 2025-11-12 yields start Monday 2025-11-10 and end Sunday
2025-11-16. -/
theorem C6_weekly_monday_to_sunday :
    (∀ c : CivilDateTime,
      dayOfWeek (getPeriodBounds "weekly" c).1.days = 1 ∧
      (getPeriodBounds "weekly" c).1.days ≤ refDays c ∧
      refDays c - (getPeriodBounds "weekly" c).1.days < 7 ∧
      (getPeriodBounds "weekly" c).2.days =
        (getPeriodBounds "weekly" c).1.days + 6 ∧
      dayOfWeek (getPeriodBounds "weekly" c).2.days = 0) ∧
    (getPeriodBounds "weekly" ⟨2025, 11, 12, 43200000⟩).1.days =
      daysFromCivil 2025 11 10 ∧
    (getPeriodBounds "weekly" ⟨2025, 11, 12, 43200000⟩).2.days =
      daysFromCivil 2025 11 16 ∧
    dayOfWeek (daysFromCivil 2025 11 12) = 3 := by
  refine ⟨fun c => ?_, by decide, by decide, by decide⟩
  rw [periodBounds_weekly]
  dsimp only
  unfold dayOfWeek
  refine ⟨by omega, by omega, by omega, rfl, by omega⟩

/-- C7: for every frequency string (the four recognized ones and any
unrecognized string, which takes the defensive daily default) and every
valid reference instant, the resolved bounds satisfy start ≤ end and
start ≤ reference ≤ end. -/
theorem C7_bounds_contain_reference (freq : String) (c : CivilDateTime)
    (h : ValidCivil c) :
    toMs (getPeriodBounds freq c).1 ≤ toMs (getPeriodBounds freq c).2 ∧
    toMs (getPeriodBounds freq c).1 ≤ toMs (toInstant c) ∧
    toMs (toInstant c) ≤ toMs (getPeriodBounds freq c).2 := by
  obtain ⟨h1, h2, h3, h4, h5, h6⟩ := h
  simp only [msPerDay] at h6
  unfold getPeriodBounds
  split <;>
    (dsimp only
     simp only [toMs, toInstant, refDays, msPerDay, endOfDayMs, dayOfWeek,
       daysFromCivil]
     omega)

/-- C7 witness: an unrecognized frequency string at the valid reference
2025-11-15 midnight falls back to the daily rule and the bounds contain it. -/
theorem C7_bounds_contain_reference_witness :
    toMs (getPeriodBounds "yearly" ⟨2025, 11, 15, 0⟩).1 ≤
      toMs (getPeriodBounds "yearly" ⟨2025, 11, 15, 0⟩).2 ∧
    toMs (getPeriodBounds "yearly" ⟨2025, 11, 15, 0⟩).1 ≤
      toMs (toInstant ⟨2025, 11, 15, 0⟩) ∧
    toMs (toInstant ⟨2025, 11, 15, 0⟩) ≤
      toMs (getPeriodBounds "yearly" ⟨2025, 11, 15, 0⟩).2 :=
  C7_bounds_contain_reference "yearly" ⟨2025, 11, 15, 0⟩ (by decide)

/-- A left fold adding log values equals the accumulator plus the sum of
the mapped values. -/
theorem foldl_add_value (L : List HabitLog) (acc : Int) :
    L.foldl (fun a l => a + l.value) acc = acc + (L.map (·.value)).sum := by
  induction L generalizing acc with
  | nil => simp
  | cons l L ih =>
    simp only [List.foldl_cons, List.map_cons, List.sum_cons, ih]
    ring

/-- C2: weekly and monthly habits display the sum of the values of the log
entries whose date lies in the current period; daily and workday habits
display the value of the single entry dated today when one exists, and 0
when none does. -/
theorem C2_total_aggregation (freq : String) (logs : List HabitLog)
    (now : CivilDateTime) :
    ((freq = "weekly" ∨ freq = "monthly") →
      currentValue freq logs now =
        ((logs.filter
            (inRange (getPeriodBounds freq now).1
              (getPeriodBounds freq now).2)).map (·.value)).sum) ∧
    ((freq = "daily" ∨ freq = "workday") →
      (∀ l, todayLogs logs now = [l] → currentValue freq logs now = l.value) ∧
      (todayLogs logs now = [] → currentValue freq logs now = 0)) := by
  constructor
  · intro hfreq
    unfold currentValue
    rw [if_pos hfreq]
    unfold periodTotal
    rw [foldl_add_value]
    simp
  · intro hfreq
    have hne : ¬(freq = "weekly" ∨ freq = "monthly") := by
      rcases hfreq with h | h <;> subst h <;> decide
    unfold currentValue
    rw [if_neg hne]
    unfold findTodayLog
    constructor
    · intro l hl
      rw [hl]
      simp only [List.head?_cons, Option.map_some]
      by_cases hv : l.value = 0 <;> simp [jsOrZero, hv]
    · intro hl
      rw [hl]
      rfl

/-- C2 witness: a weekly habit with entries valued 2, 3 and 2 dated inside
the week of Wednesday 2025-11-12 displays Total 7. -/
theorem C2_total_aggregation_witness :
    currentValue "weekly"
      [⟨1, "u", "h", ⟨20402, 0⟩, 2, "UTC"⟩,
       ⟨2, "u", "h", ⟨20403, 0⟩, 3, "UTC"⟩,
       ⟨3, "u", "h", ⟨20404, 0⟩, 2, "UTC"⟩]
      ⟨2025, 11, 12, 43200000⟩ = 7 := by
  rw [(C2_total_aggregation "weekly"
    [⟨1, "u", "h", ⟨20402, 0⟩, 2, "UTC"⟩,
     ⟨2, "u", "h", ⟨20403, 0⟩, 3, "UTC"⟩,
     ⟨3, "u", "h", ⟨20404, 0⟩, 2, "UTC"⟩]
    ⟨2025, 11, 12, 43200000⟩).1 (Or.inl rfl)]
  decide

/-- A log returned by the today query is one of the habit's logs and is
dated inside today's day bucket. -/
theorem findTodayLog_mem {logs : List HabitLog} {now : CivilDateTime}
    {tl : HabitLog} (h : findTodayLog logs now = some tl) :
    tl ∈ logs ∧ inRange ⟨refDays now, 0⟩ ⟨refDays now, endOfDayMs⟩ tl = true := by
  unfold findTodayLog at h
  have hmem : tl ∈ todayLogs logs now := by
    cases hf : todayLogs logs now with
    | nil => rw [hf] at h; exact absurd h (by simp)
    | cons a t =>
      rw [hf] at h
      simp only [List.head?_cons, Option.some.injEq] at h
      subst h
      exact List.mem_cons_self _ _
  unfold todayLogs at hmem
  exact List.mem_filter.mp hmem

/-- C3: for a workday-frequency habit, whenever the current instant falls on
a Saturday (day-of-week 6) or Sunday (day-of-week 0) in local time, neither
the increment nor the decrement affordance can produce a write. Reasoned
against the rest-day card model `cardIncrementWrite`/`cardDecrementWrite`,
which is modelled from the spec because the rest-day card implementation is
absent from the source tree. -/
theorem C3_workday_weekend_no_write (freq : String) (newId : Nat)
    (uid hid tz : String) (now : CivilDateTime) (logs : List HabitLog)
    (hfreq : freq = "workday")
    (hwk : dayOfWeek (refDays now) = 6 ∨ dayOfWeek (refDays now) = 0) :
    cardIncrementWrite freq newId uid hid tz now logs = none ∧
    cardDecrementWrite freq now logs = none := by
  have hrest : restDay freq (refDays now) = true := by
    subst hfreq
    unfold restDay
    rcases hwk with h | h <;> simp [h]
  unfold cardIncrementWrite cardDecrementWrite
  rw [hrest]
  simp

/-- C3 witness: on Saturday 2025-01-04 a workday habit issues no increment
and no decrement write. -/
theorem C3_workday_weekend_no_write_witness :
    cardIncrementWrite "workday" 1 "u" "h" "UTC" ⟨2025, 1, 4, 43200000⟩ []
      = none ∧
    cardDecrementWrite "workday" ⟨2025, 1, 4, 43200000⟩ [] = none :=
  C3_workday_weekend_no_write "workday" 1 "u" "h" "UTC"
    ⟨2025, 1, 4, 43200000⟩ [] rfl (Or.inl (by decide))

/-- C4: with no entry for today, increment creates one entry for today with
value 1 (appended to the collection); with an entry for today, increment
overwrites exactly that entry's value to its value plus 1, leaves every
other entry unchanged and creates no second entry. The handler takes no
frequency input, so the behavior is identical for every frequency. -/
theorem C4_increment_semantics (newId : Nat) (uid hid tz : String)
    (now : CivilDateTime) (logs : List HabitLog)
    (hnodup : (logs.map (·.id)).Nodup) :
    (findTodayLog logs now = none →
      applyWrite logs (handleIncrementWrite newId uid hid tz now logs) =
        logs ++ [⟨newId, uid, hid, ⟨refDays now, 0⟩, 1, tz⟩]) ∧
    (∀ tl, findTodayLog logs now = some tl →
      (applyWrite logs
          (handleIncrementWrite newId uid hid tz now logs)).length
        = logs.length ∧
      ∀ (k : Nat) (l : HabitLog), logs[k]? = some l →
        (applyWrite logs (handleIncrementWrite newId uid hid tz now logs))[k]?
          = some (if l = tl then { tl with value := tl.value + 1 } else l)) := by
  constructor
  · intro h
    unfold handleIncrementWrite
    rw [h]
    rfl
  · intro tl h
    unfold handleIncrementWrite
    rw [h]
    constructor
    · simp [applyWrite]
    · intro k l hk
      have htl := findTodayLog_mem h
      have hl : l ∈ logs := List.getElem?_mem hk
      simp only [applyWrite, List.getElem?_map, hk, Option.map_some']
      congr 1
      by_cases hid2 : l.id = tl.id
      · have heq : l = tl := List.inj_on_of_nodup_map hnodup hl htl.1 hid2
        subst heq
        simp
      · have hne : l ≠ tl := fun he => hid2 (he ▸ rfl)
        simp [hid2, hne]

/-- C4 witness: on Wednesday 2025-11-12 with an empty collection, increment
appends one entry dated that day with value 1; with that entry present,
increment overwrites it to value 2 and the collection keeps length 1. -/
theorem C4_increment_semantics_witness :
    (applyWrite []
        (handleIncrementWrite 7 "u" "h" "UTC" ⟨2025, 11, 12, 1000⟩ []) =
      [⟨7, "u", "h", ⟨refDays ⟨2025, 11, 12, 1000⟩, 0⟩, 1, "UTC"⟩]) ∧
    (applyWrite [⟨7, "u", "h", ⟨20404, 0⟩, 1, "UTC"⟩]
        (handleIncrementWrite 8 "u" "h" "UTC" ⟨2025, 11, 12, 1000⟩
          [⟨7, "u", "h", ⟨20404, 0⟩, 1, "UTC"⟩]))[0]?
      = some ⟨7, "u", "h", ⟨20404, 0⟩, 2, "UTC"⟩ := by
  constructor
  · exact (C4_increment_semantics 7 "u" "h" "UTC" ⟨2025, 11, 12, 1000⟩ []
      (by simp)).1 rfl
  · have h := ((C4_increment_semantics 8 "u" "h" "UTC" ⟨2025, 11, 12, 1000⟩
      [⟨7, "u", "h", ⟨20404, 0⟩, 1, "UTC"⟩] (by simp)).2
      ⟨7, "u", "h", ⟨20404, 0⟩, 1, "UTC"⟩ (by decide)).2 0
      ⟨7, "u", "h", ⟨20404, 0⟩, 1, "UTC"⟩ rfl
    rw [h]
    decide

/-- C5: decrement issues no write when there is no entry for today or when
today's entry's value is 0 (log values are nonnegative by the data model);
otherwise it produces exactly one update setting today's entry to its value
minus 1, and applying it leaves every entry other than today's unchanged. -/
theorem C5_decrement_guard (now : CivilDateTime) (logs : List HabitLog)
    (hnodup : (logs.map (·.id)).Nodup)
    (hvals : ∀ l ∈ logs, 0 ≤ l.value) :
    (findTodayLog logs now = none → handleDecrementWrite now logs = none) ∧
    (∀ tl, findTodayLog logs now = some tl → tl.value = 0 →
      handleDecrementWrite now logs = none) ∧
    (∀ tl, findTodayLog logs now = some tl → tl.value ≠ 0 →
      handleDecrementWrite now logs =
        some (.updateLogValue tl.id (tl.value - 1)) ∧
      inRange ⟨refDays now, 0⟩ ⟨refDays now, endOfDayMs⟩ tl = true ∧
      ∀ (k : Nat) (l : HabitLog), logs[k]? = some l →
        (applyWrite logs (.updateLogValue tl.id (tl.value - 1)))[k]? =
          some (if l = tl then { tl with value := tl.value - 1 } else l)) := by
  refine ⟨?_, ?_, ?_⟩
  · intro h
    unfold handleDecrementWrite
    rw [h]
  · intro tl h hz
    unfold handleDecrementWrite
    rw [h]
    simp only []
    rw [if_pos (by omega)]
  · intro tl h hz
    have htl := findTodayLog_mem h
    have h0 : 0 ≤ tl.value := hvals tl htl.1
    refine ⟨?_, htl.2, ?_⟩
    · unfold handleDecrementWrite
      rw [h]
      simp only []
      rw [if_neg (by omega)]
    · intro k l hk
      have hl : l ∈ logs := List.getElem?_mem hk
      simp only [applyWrite, List.getElem?_map, hk, Option.map_some']
      congr 1
      by_cases hid2 : l.id = tl.id
      · have heq : l = tl := List.inj_on_of_nodup_map hnodup hl htl.1 hid2
        subst heq
        simp
      · have hne : l ≠ tl := fun he => hid2 (he ▸ rfl)
        simp [hid2, hne]

/-- C5 witness: with today's entry at value 0 decrement issues no write;
with it at value 2 it issues the single update to value 1. -/
theorem C5_decrement_guard_witness :
    handleDecrementWrite ⟨2025, 11, 12, 1000⟩
      [⟨7, "u", "h", ⟨20404, 0⟩, 0, "UTC"⟩] = none ∧
    handleDecrementWrite ⟨2025, 11, 12, 1000⟩
      [⟨7, "u", "h", ⟨20404, 0⟩, 2, "UTC"⟩] =
      some (.updateLogValue 7 1) := by
  constructor
  · exact (C5_decrement_guard ⟨2025, 11, 12, 1000⟩
      [⟨7, "u", "h", ⟨20404, 0⟩, 0, "UTC"⟩] (by simp)
      (by decide)).2.1
      ⟨7, "u", "h", ⟨20404, 0⟩, 0, "UTC"⟩ (by decide) rfl
  · exact ((C5_decrement_guard ⟨2025, 11, 12, 1000⟩
      [⟨7, "u", "h", ⟨20404, 0⟩, 2, "UTC"⟩] (by simp)
      (by decide)).2.2
      ⟨7, "u", "h", ⟨20404, 0⟩, 2, "UTC"⟩ (by decide) (by decide)).1

/-- A value update leaves a log's date unchanged. -/
theorem date_of_update (idv : Nat) (v : Int) (l : HabitLog) :
    ((if l.id = idv then { l with value := v } else l) : HabitLog).date
      = l.date := by
  split <;> rfl

/-- Branch equation of `directEdit` when a log exists for the day. -/
theorem directEdit_some {logs : List HabitLog} {d : Int} {l : HabitLog}
    (newId : Nat) (uid hid tz : String) (v : Int)
    (h : findLogForDate logs d = some l) :
    directEdit newId uid hid tz logs d v =
      applyWrite logs (.updateLogValue l.id v) := by
  unfold directEdit
  rw [h]

/-- Branch equation of `directEdit` when no log exists for the day. -/
theorem directEdit_none {logs : List HabitLog} {d : Int}
    (newId : Nat) (uid hid tz : String) (v : Int)
    (h : findLogForDate logs d = none) :
    directEdit newId uid hid tz logs d v =
      logs ++ [⟨newId, uid, hid, ⟨d, 0⟩, v, tz⟩] := by
  unfold directEdit
  rw [h]
  rfl

/-- Searching for a day after a value update finds the updated form of the
log the search found before. -/
theorem findLogForDate_update (logs : List HabitLog) (d : Int) (idv : Nat)
    (v : Int) :
    findLogForDate (applyWrite logs (.updateLogValue idv v)) d =
      (findLogForDate logs d).map
        (fun l => if l.id = idv then { l with value := v } else l) := by
  unfold findLogForDate
  simp only [applyWrite]
  rw [List.find?_map]
  have hp : ((fun l : HabitLog => decide (l.date.days = d)) ∘
      fun l : HabitLog => if l.id = idv then { l with value := v } else l)
      = fun l : HabitLog => decide (l.date.days = d) := by
    funext l
    simp only [Function.comp]
    rw [date_of_update]
  rw [hp]

/-- Updating the same log to the same value twice equals updating once. -/
theorem applyWrite_update_idem (logs : List HabitLog) (i : Nat) (v : Int) :
    applyWrite (applyWrite logs (.updateLogValue i v)) (.updateLogValue i v)
      = applyWrite logs (.updateLogValue i v) := by
  simp only [applyWrite]
  rw [List.map_map]
  apply List.map_congr_left
  intro a _
  by_cases hida : a.id = i <;> simp [Function.comp, hida]

/-- C8: the direct calendar edit is idempotent: performing it twice with the
same date and nonnegative value leaves the log collection, and hence every
period Total, unchanged after the second call relative to after the first
(the id of the first call's created entry being fresh). -/
theorem C8_direct_edit_idempotent (newId newId2 : Nat)
    (uid uid2 hid hid2 tz tz2 : String) (logs : List HabitLog) (d v : Int)
    (hv : 0 ≤ v) (hfresh : ∀ l ∈ logs, l.id ≠ newId) :
    directEdit newId2 uid2 hid2 tz2 (directEdit newId uid hid tz logs d v) d v
      = directEdit newId uid hid tz logs d v ∧
    ∀ s e : Instant,
      periodTotal
        (directEdit newId2 uid2 hid2 tz2
          (directEdit newId uid hid tz logs d v) d v) s e
      = periodTotal (directEdit newId uid hid tz logs d v) s e := by
  have hmain : directEdit newId2 uid2 hid2 tz2
      (directEdit newId uid hid tz logs d v) d v
      = directEdit newId uid hid tz logs d v := by
    cases hf : findLogForDate logs d with
    | some l =>
      rw [directEdit_some newId uid hid tz v hf]
      have hf2 : findLogForDate (applyWrite logs (.updateLogValue l.id v)) d
          = some { l with value := v } := by
        rw [findLogForDate_update, hf]
        simp
      rw [directEdit_some newId2 uid2 hid2 tz2 v hf2]
      exact applyWrite_update_idem logs l.id v
    | none =>
      rw [directEdit_none newId uid hid tz v hf]
      have hf2 : findLogForDate (logs ++ [⟨newId, uid, hid, ⟨d, 0⟩, v, tz⟩]) d
          = some ⟨newId, uid, hid, ⟨d, 0⟩, v, tz⟩ := by
        unfold findLogForDate at hf ⊢
        rw [List.find?_append, hf]
        simp
      rw [directEdit_some newId2 uid2 hid2 tz2 v hf2]
      simp only [applyWrite]
      rw [List.map_append]
      congr 1
      · conv_rhs => rw [← List.map_id logs]
        apply List.map_congr_left
        intro a ha
        rw [if_neg (by simpa using hfresh a ha)]
        rfl
      · simp
  exact ⟨hmain, fun s e => by rw [hmain]⟩

/-- C8 witness: editing 2025-11-12 to value 4 twice on an empty collection
gives the same collection and the same period total as editing once. -/
theorem C8_direct_edit_idempotent_witness :
    directEdit 2 "u" "h" "UTC" (directEdit 1 "u" "h" "UTC" [] 20404 4)
        20404 4
      = directEdit 1 "u" "h" "UTC" [] 20404 4 ∧
    periodTotal
        (directEdit 2 "u" "h" "UTC" (directEdit 1 "u" "h" "UTC" [] 20404 4)
          20404 4) ⟨20402, 0⟩ ⟨20408, endOfDayMs⟩
      = periodTotal (directEdit 1 "u" "h" "UTC" [] 20404 4)
          ⟨20402, 0⟩ ⟨20408, endOfDayMs⟩ := by
  have h := C8_direct_edit_idempotent 1 2 "u" "u" "h" "h" "UTC" "UTC" []
    20404 4 (by decide) (by decide)
  exact ⟨h.1, h.2 ⟨20402, 0⟩ ⟨20408, endOfDayMs⟩⟩

/-- Pointwise reading of `setOrder`. -/
theorem setOrder_getElem (id : String) (ord : Int) (store : List Habit)
    (p : Nat) :
    (setOrder id ord store)[p]? =
      (store[p]?).map
        (fun h => if h.id = id then { h with order := ord } else h) := by
  unfold setOrder
  exact List.getElem?_map _ _ _

/-- Pointwise characterization of `applyOrders` for distinct ids: each habit
whose id occurs in the list gets order `k` plus its index; others are
untouched. -/
theorem applyOrders_getElem (ids : List String) (k : Int)
    (store : List Habit) (p : Nat) (hnd : ids.Nodup) :
    (applyOrders ids k store)[p]? =
      (store[p]?).map
        (fun h =>
          if h.id ∈ ids then { h with order := k + idxOf h.id ids } else h) := by
  induction ids generalizing k store with
  | nil =>
    unfold applyOrders
    cases store[p]? <;> simp
  | cons id rest ih =>
    unfold applyOrders
    rw [ih (k + 1) (setOrder id k store) hnd.of_cons, setOrder_getElem]
    cases hsp : store[p]? with
    | none => rfl
    | some h =>
      simp only [Option.map_some']
      congr 1
      have hnotin : id ∉ rest := (List.nodup_cons.mp hnd).1
      by_cases h1 : h.id = id
      · rw [if_pos h1]
        have hm1 : ¬ (({ h with order := k } : Habit).id ∈ rest) := by
          show ¬ (h.id ∈ rest)
          rw [h1]
          exact hnotin
        rw [if_neg hm1]
        have hm2 : h.id ∈ id :: rest := by
          rw [h1]
          exact List.mem_cons_self _ _
        rw [if_pos hm2]
        simp only [idxOf]
        rw [if_pos h1]
        norm_num
      · rw [if_neg h1]
        by_cases h2 : h.id ∈ rest
        · rw [if_pos h2]
          have hm2 : h.id ∈ id :: rest := List.mem_cons_of_mem _ h2
          rw [if_pos hm2]
          have hidx : idxOf h.id (id :: rest) = idxOf h.id rest + 1 := by
            simp only [idxOf]
            rw [if_neg h1]
          rw [hidx]
          have harith : k + 1 + idxOf h.id rest
              = k + (idxOf h.id rest + 1) := by ring
          rw [harith]
        · rw [if_neg h2]
          have hm2 : ¬ h.id ∈ id :: rest := by
            simp [List.mem_cons, h1, h2]
          rw [if_neg hm2]

/-- Under distinctness, `idxOf` of the element at position `i` is `i`. -/
theorem idxOf_get (ids : List String) (hnd : ids.Nodup) (i : Nat)
    (hi : i < ids.length) :
    idxOf (ids.get ⟨i, hi⟩) ids = (i : Int) := by
  induction ids generalizing i with
  | nil => exact absurd hi (by simp)
  | cons b l ih =>
    cases i with
    | zero =>
      have hb0 : (b :: l).get ⟨0, hi⟩ = b := rfl
      rw [hb0]
      simp [idxOf]
    | succ n =>
      have hn : n < l.length := by simpa using hi
      have hb : (b :: l).get ⟨n + 1, hi⟩ = l.get ⟨n, hn⟩ := rfl
      rw [hb]
      simp only [idxOf]
      have hne : l.get ⟨n, hn⟩ ≠ b := by
        intro he
        exact (List.nodup_cons.mp hnd).1 (he ▸ List.get_mem l n hn)
      rw [if_neg hne, ih hnd.of_cons n hn]
      push_cast
      ring

/-- C9: reordering with a duplicate-free id list sets each habit's order
field to the 0-based position of its id in the new list, keeping the habit
at its storage position. -/
theorem C9_reorder_positional (ids : List String) (store : List Habit)
    (hnd : ids.Nodup) (i : Nat) (hi : i < ids.length) (p : Nat) (hab : Habit)
    (hp : store[p]? = some hab) (hidv : hab.id = ids.get ⟨i, hi⟩) :
    (reorderHabits ids store)[p]? = some { hab with order := (i : Int) } := by
  unfold reorderHabits
  rw [applyOrders_getElem ids 0 store p hnd, hp]
  simp only [Option.map_some']
  have hmem : hab.id ∈ ids := by
    rw [hidv]
    exact List.get_mem _ _ _
  rw [if_pos hmem, hidv, idxOf_get ids hnd i hi]
  norm_num

/-- C9 witness: habits stored as [A, B, C] reordered to [B, A, C] end with
order fields B = 0, A = 1, C = 2. -/
theorem C9_reorder_positional_witness :
    (reorderHabits ["B", "A", "C"]
      [⟨"A", "u", "A", "a", 1, none, "times", "daily", 0⟩,
       ⟨"B", "u", "B", "b", 1, none, "times", "daily", 1⟩,
       ⟨"C", "u", "C", "c", 1, none, "times", "daily", 2⟩])[0]?
      = some ⟨"A", "u", "A", "a", 1, none, "times", "daily", 1⟩ ∧
    (reorderHabits ["B", "A", "C"]
      [⟨"A", "u", "A", "a", 1, none, "times", "daily", 0⟩,
       ⟨"B", "u", "B", "b", 1, none, "times", "daily", 1⟩,
       ⟨"C", "u", "C", "c", 1, none, "times", "daily", 2⟩])[1]?
      = some ⟨"B", "u", "B", "b", 1, none, "times", "daily", 0⟩ ∧
    (reorderHabits ["B", "A", "C"]
      [⟨"A", "u", "A", "a", 1, none, "times", "daily", 0⟩,
       ⟨"B", "u", "B", "b", 1, none, "times", "daily", 1⟩,
       ⟨"C", "u", "C", "c", 1, none, "times", "daily", 2⟩])[2]?
      = some ⟨"C", "u", "C", "c", 1, none, "times", "daily", 2⟩ := by
  refine ⟨?_, ?_, ?_⟩
  · exact C9_reorder_positional ["B", "A", "C"] _ (by decide) 1 (by decide)
      0 ⟨"A", "u", "A", "a", 1, none, "times", "daily", 0⟩ rfl rfl
  · exact C9_reorder_positional ["B", "A", "C"] _ (by decide) 0 (by decide)
      1 ⟨"B", "u", "B", "b", 1, none, "times", "daily", 1⟩ rfl rfl
  · exact C9_reorder_positional ["B", "A", "C"] _ (by decide) 2 (by decide)
      2 ⟨"C", "u", "C", "c", 1, none, "times", "daily", 2⟩ rfl rfl

end Habits
